import Mathlib

/-!
Verification of the audiobook-chapterizer chapter-detection core.

The Rust sources under `src/chapterize/` (Token, ResultsParser), together with
`src/fixed_vec_deque.rs`, `src/audio_provider.rs` and `src/extract/mod.rs`, are
shallowly embedded below.  Machine floats (`f32`) are modelled as rationals,
fallible operations (`assert!`, `unwrap`, `panic!`) as `Option` (with `none`
standing for a panic), and the external `text2num` number-normalization crate
as an explicit function parameter `rw : List Token → List Token`, so every
statement about the state machine is quantified over the normalizer's
behavior unless a specific property of it is required.
-/

set_option linter.unusedVariables false

namespace Chapterizer

/-- A transcript token: a word with start and end time in seconds and a flag
marking tokens synthesized by number normalization.
Mirrors `Token` in `src/chapterize/token.rs` (the `end` field is named `stop`
here because `end` is a Lean keyword). -/
structure Token where
  start : ℚ
  stop : ℚ
  word : String
  is_replacement : Bool
deriving DecidableEq, Repr

/-- `Token::is_chapter_token` from `src/chapterize/token.rs`. -/
def Token.is_chapter_token (t : Token) : Bool :=
  t.word = "chapter" || t.word = "chapters"

/-- `MIN_VOCAL_PAUSE_BEFORE_CHAPTER` from `src/chapterize/results_parser.rs`
(0.25 seconds). -/
def MIN_VOCAL_PAUSE_BEFORE_CHAPTER : ℚ := 1/4

/-- `POST_CHAPTER_CONTEXT` from `src/chapterize/mod.rs`. -/
def POST_CHAPTER_CONTEXT : ℕ := 30

/-- Itertools' `find_position`: the index and value of the first element
satisfying the predicate. -/
def find_position {α : Type} (p : α → Bool) : List α → Option (ℕ × α)
  | [] => none
  | x :: xs =>
    if p x then some (0, x)
    else (find_position p xs).map (fun ix => (ix.1 + 1, ix.2))

/-- `ParseResult` from `src/chapterize/results_parser.rs`. -/
inductive ParseResult where
  | Match (tokens : List Token)
  | Incomplete
  | Failure
deriving DecidableEq, Repr

/-- The buffer/capacity state of `ResultsParser`
(`src/chapterize/results_parser.rs`); the output channel is modelled by
returning emitted results explicitly. -/
structure ResultsParser where
  buffer : List Token
  capacity : ℕ
deriving DecidableEq, Repr

/-- `ResultsParser::new`: empty buffer, capacity `2 + post_match_context`. -/
def ResultsParser.new (post_match_context : ℕ) : ResultsParser :=
  { buffer := [], capacity := 2 + post_match_context }

/-- `ResultsParser::is_empty`. -/
def ResultsParser.is_empty (p : ResultsParser) : Bool := p.buffer.isEmpty

/-- `ResultsParser::has_data`. -/
def ResultsParser.has_data (p : ResultsParser) : Bool := !p.is_empty

/-- `ResultsParser::is_full`. -/
def ResultsParser.is_full (p : ResultsParser) : Bool :=
  p.buffer.length = p.capacity

/-- The tail of `ResultsParser::parse_chapter` after the pause gate has been
passed for the keyword at buffer index `i`
(`src/chapterize/results_parser.rs` lines 215-267): require a token after the
keyword, run the number normalizer `rw` over the buffer from the keyword on,
require the token after the keyword to be a synthesized replacement, wait for
one more token unless at end of stream, then match on the first two tokens.
`none` models a panic (a failed `assert!` or `unwrap`). -/
def after_pause_gate (rw : List Token → List Token) (buffer : List Token)
    (is_end : Bool) (i : ℕ) : Option ParseResult :=
  if (buffer.drop (i + 1)).length = 0 then
    some (if is_end then ParseResult.Failure else ParseResult.Incomplete)
  else
    let tokens := buffer.drop i
    if tokens.any (fun t => t.is_replacement) then none
    else
      let tokens := rw tokens
      match tokens.get? 0 with
      | none => none
      | some chapter_token =>
        if !chapter_token.is_chapter_token then none
        else if chapter_token.is_replacement then none
        else
          match tokens.get? 1 with
          | none => none
          | some chapter_number_token =>
            if !chapter_number_token.is_replacement then some ParseResult.Failure
            else if (tokens.get? 2).isNone && !is_end then some ParseResult.Incomplete
            else some (ParseResult.Match (tokens.take 2))

/-- `ResultsParser::parse_chapter`
(`src/chapterize/results_parser.rs` lines 184-268): locate the first
chapter-keyword token, apply the pause gate against the token at the
preceding buffer index (when one exists), then continue with
`after_pause_gate`. -/
def ResultsParser.parse_chapter (p : ResultsParser)
    (rw : List Token → List Token) (is_end : Bool) : Option ParseResult :=
  match find_position (fun t => t.is_chapter_token) p.buffer with
  | none =>
    some (if is_end then ParseResult.Failure else ParseResult.Incomplete)
  | some (chapter_token_index, chapter_token) =>
    let prev? : Option Token :=
      if chapter_token_index = 0 then none
      else p.buffer.get? (chapter_token_index - 1)
    match prev? with
    | some prev_token =>
      if chapter_token.start - prev_token.stop < MIN_VOCAL_PAUSE_BEFORE_CHAPTER then
        some ParseResult.Failure
      else after_pause_gate rw p.buffer is_end chapter_token_index
    | none => after_pause_gate rw p.buffer is_end chapter_token_index

/-- `ResultsParser::do_parse`: run `parse_chapter`, assert the result is not
`Incomplete` at end of stream, clear the buffer on `Match`/`Failure` (and on
`Incomplete` with a full buffer, the logged anomaly case), and emit every
non-`Incomplete` result on the channel (modelled as the second component). -/
def ResultsParser.do_parse (p : ResultsParser) (rw : List Token → List Token)
    (is_end : Bool) : Option (ResultsParser × Option ParseResult) :=
  match p.parse_chapter rw is_end with
  | none => none
  | some parse_result =>
    if is_end && decide (parse_result = ParseResult.Incomplete) then none
    else
      let p' :=
        match parse_result with
        | ParseResult.Match _ | ParseResult.Failure => { p with buffer := [] }
        | ParseResult.Incomplete =>
          if p.is_full then { p with buffer := [] } else p
      some (p',
        if parse_result = ParseResult.Incomplete then none else some parse_result)

/-- `ResultsParser::push`: append the item, assert the buffer stays within
capacity (`none` when that assertion fires), then `do_parse(false)`. -/
def ResultsParser.push (p : ResultsParser) (rw : List Token → List Token)
    (item : Token) : Option (ResultsParser × Option ParseResult) :=
  let buffer := p.buffer ++ [item]
  if buffer.length ≤ p.capacity then
    ResultsParser.do_parse { p with buffer := buffer } rw false
  else none

/-- `ResultsParser::flush`: one final `do_parse(true)` at end of stream. -/
def ResultsParser.flush (p : ResultsParser) (rw : List Token → List Token) :
    Option (ResultsParser × Option ParseResult) :=
  p.do_parse rw true

/-- One iteration of the token loop in `ResultsParser::ingest_results`
(`src/chapterize/results_parser.rs` lines 128-140): when the buffer has data
or the token is a chapter keyword, first push the remembered previous token
if this opens a new match, then push the token itself; emitted results are
collected in order. -/
def ResultsParser.ingest_token (p : ResultsParser)
    (rw : List Token → List Token) (prev_token : Option Token) (token : Token) :
    Option (ResultsParser × List ParseResult) :=
  if p.has_data || token.is_chapter_token then
    match (if p.is_empty && token.is_chapter_token then
        match prev_token with
        | some pt => p.push rw pt
        | none => some (p, (none : Option ParseResult))
      else some (p, (none : Option ParseResult))) with
    | none => none
    | some (p1, em1) =>
      match p1.push rw token with
      | none => none
      | some (p2, em2) => some (p2, em1.toList ++ em2.toList)
  else some (p, [])

/-- The full token loop of `ResultsParser::ingest_results` over a chosen
alternative's token list, threading the `prev_token` memo (which is replaced
by every token, pushed or not). -/
def ResultsParser.ingest_tokens (p : ResultsParser)
    (rw : List Token → List Token) (prev_token : Option Token) :
    List Token → Option (ResultsParser × Option Token × List ParseResult)
  | [] => some (p, prev_token, [])
  | token :: rest =>
    match p.ingest_token rw prev_token token with
    | none => none
    | some (p1, ems1) =>
      match ResultsParser.ingest_tokens p1 rw (some token) rest with
      | none => none
      | some (p2, pv, ems2) => some (p2, pv, ems1 ++ ems2)

/-! Example tokens used by concrete witnesses and counterexamples. -/

/-- A non-keyword token ending at 1s. -/
def exHello : Token := { start := 0, stop := 1, word := "hello", is_replacement := false }

/-- A keyword token starting 0.1s after `exHello` ends (pause too short). -/
def exChapterClose : Token :=
  { start := 11/10, stop := 3/2, word := "chapter", is_replacement := false }

/-- A keyword token starting 1s after `exHello` ends (pause long enough). -/
def exChapterFar : Token := { start := 2, stop := 5/2, word := "chapter", is_replacement := false }

/-- A non-number word following a keyword. -/
def exWorld : Token := { start := 3, stop := 7/2, word := "world", is_replacement := false }

/-- The number word "two". -/
def exTwo : Token := { start := 27/10, stop := 3, word := "two", is_replacement := false }

/-- A toy stand-in for the `text2num` normalizer used only to build concrete
witnesses: it turns the single word "two" into the synthesized digit token
"2". -/
def rwToy (ts : List Token) : List Token :=
  ts.map (fun t =>
    if t.word = "two" then { t with word := "2", is_replacement := true } else t)

/-- Helper: at end of stream, `after_pause_gate` can resolve to `Failure`, a
`Match`, or a panic, but never to `Incomplete`. -/
theorem after_pause_gate_end_ne_incomplete (rw : List Token → List Token)
    (b : List Token) (i : ℕ) :
    after_pause_gate rw b true i ≠ some ParseResult.Incomplete := by
  unfold after_pause_gate
  dsimp only
  repeat' split
  all_goals simp_all

/-- Claim C1: whenever the first chapter-keyword token in the buffer has a
token at the preceding buffer index and the vocal pause
(keyword start minus preceding end) is below 0.25s, `parse_chapter` resolves
`Failure` — for any normalizer behavior, any end-of-stream flag and any
tokens following the keyword; and when no preceding token exists the pause
gate does not reject: the result is exactly the post-gate resolution. -/
theorem parse_chapter_pause_gate (p : ResultsParser)
    (rw : List Token → List Token) (is_end : Bool) :
    (∀ j kw prev, find_position (fun t => t.is_chapter_token) p.buffer = some (j + 1, kw) →
      p.buffer.get? j = some prev →
      kw.start - prev.stop < MIN_VOCAL_PAUSE_BEFORE_CHAPTER →
      p.parse_chapter rw is_end = some ParseResult.Failure) ∧
    (∀ kw, find_position (fun t => t.is_chapter_token) p.buffer = some (0, kw) →
      p.parse_chapter rw is_end = after_pause_gate rw p.buffer is_end 0) := by
  constructor
  · intro j kw prev hfind hget hlt
    unfold ResultsParser.parse_chapter
    rw [hfind]
    dsimp only
    rw [if_neg (Nat.succ_ne_zero j)]
    simp only [Nat.add_sub_cancel]
    rw [hget]
    dsimp only
    rw [if_pos hlt]
  · intro kw hfind
    unfold ResultsParser.parse_chapter
    rw [hfind]
    rfl

/-- Witness for C1 at concrete inputs: a 0.1s pause before "chapter" resolves
`Failure`, and a buffer opening with the keyword goes straight past the
pause gate. -/
theorem parse_chapter_pause_gate_witness :
    ({ buffer := [exHello, exChapterClose, exTwo], capacity := 32 } :
        ResultsParser).parse_chapter rwToy false = some ParseResult.Failure ∧
    ({ buffer := [exChapterFar, exTwo], capacity := 32 } :
        ResultsParser).parse_chapter rwToy false =
      after_pause_gate rwToy [exChapterFar, exTwo] false 0 :=
  ⟨(parse_chapter_pause_gate _ rwToy false).1 0 exChapterClose exHello
      (by with_unfolding_all decide) (by with_unfolding_all decide)
      (by with_unfolding_all decide),
    (parse_chapter_pause_gate _ rwToy false).2 exChapterFar
      (by with_unfolding_all decide)⟩

/-- Claim C2: when the buffer resolution passes the pause gate, at least one
token follows the keyword, and the token of the normalized sequence
immediately following the keyword is not a synthesized replacement token,
`parse_chapter` resolves `Failure` (and hence never `Match`), for either
value of the end-of-stream flag. -/
theorem parse_chapter_nonnumber_failure (p : ResultsParser)
    (rw : List Token → List Token) (is_end : Bool) (i : ℕ) (kw : Token)
    (hfind : find_position (fun t => t.is_chapter_token) p.buffer = some (i, kw))
    (hgate : ∀ j prev, i = j + 1 → p.buffer.get? j = some prev →
      ¬ kw.start - prev.stop < MIN_VOCAL_PAUSE_BEFORE_CHAPTER)
    (hafter : (p.buffer.drop (i + 1)).length ≠ 0)
    (hclean : ∀ t ∈ p.buffer.drop i, t.is_replacement = false)
    (ct cnt : Token)
    (h0 : (rw (p.buffer.drop i)).get? 0 = some ct)
    (hct : ct.is_chapter_token = true) (hctr : ct.is_replacement = false)
    (h1 : (rw (p.buffer.drop i)).get? 1 = some cnt)
    (hcnt : cnt.is_replacement = false) :
    p.parse_chapter rw is_end = some ParseResult.Failure := by
  have hany : (p.buffer.drop i).any (fun t => t.is_replacement) = false := by
    simp only [List.any_eq_false]
    intro t ht
    simp [hclean t ht]
  have hgate' : after_pause_gate rw p.buffer is_end i = some ParseResult.Failure := by
    unfold after_pause_gate
    dsimp only
    rw [if_neg hafter, hany]
    simp only [Bool.false_eq_true, if_false, h0, hct, hctr]
    simp only [Bool.not_true, Bool.false_eq_true, if_false, h1, hcnt, Bool.not_false, if_true]
  unfold ResultsParser.parse_chapter
  rw [hfind]
  dsimp only
  cases i with
  | zero => exact hgate'
  | succ j =>
    rw [if_neg (Nat.succ_ne_zero j)]
    simp only [Nat.add_sub_cancel]
    cases hbj : p.buffer.get? j with
    | none => exact hgate'
    | some prev =>
      dsimp only
      rw [if_neg (hgate j prev rfl hbj)]
      exact hgate'

/-- Witness for C2 at a concrete input: "chapter" followed by the non-number
word "world" resolves `Failure` under the toy normalizer (which leaves
"world" unchanged). -/
theorem parse_chapter_nonnumber_failure_witness :
    ({ buffer := [exChapterFar, exWorld], capacity := 32 } :
        ResultsParser).parse_chapter rwToy false = some ParseResult.Failure :=
  parse_chapter_nonnumber_failure _ rwToy false 0 exChapterFar
    (by with_unfolding_all decide)
    (by intro j prev h; simp at h)
    (by with_unfolding_all decide)
    (by with_unfolding_all decide)
    exChapterFar exWorld
    (by with_unfolding_all decide)
    (by with_unfolding_all decide) (by with_unfolding_all decide)
    (by with_unfolding_all decide)
    (by with_unfolding_all decide)

/-- The synthesized replacement token the toy normalizer produces for
`exTwo`. -/
def exTwoRepl : Token := { start := 27/10, stop := 3, word := "2", is_replacement := true }

/-- Rust's `str::parse::<f32>` as used on the normalizer's digit words,
restricted to non-empty decimal-digit strings (the only words the
normalizer synthesizes); `none` models a parse failure, which the caller
unwraps into a panic. -/
def parseNatDigits (s : String) : Option ℕ :=
  if s.data ≠ [] ∧ s.data.all (fun c => c.isDigit) then
    some (s.data.foldl (fun a c => a * 10 + (c.toNat - 48)) 0)
  else none

/-- Rust's `format!("Chapter {:02}", n)` for a whole-number value: the
decimal numeral zero-padded on the left to width 2. -/
def chapterTitle (n : ℕ) : String :=
  "Chapter " ++ (if n < 10 then "0" ++ toString n else toString n)

/-- `Duration::from_secs_f32`: panics (`none`) on a negative input, which
cannot represent a `Duration`. -/
def durFromSecs (s : ℚ) : Option ℚ :=
  if s < 0 then none else some s

/-- The chapter event written for one `Match` by the parse-result processor
thread in `chapterize` (`src/chapterize/mod.rs` lines 136-154): start time is
the first token's start as a `Duration`, `saturating_sub` one second
(`PRE_CHAPTER_START_MARGIN`), and the title formats the second token's word
parsed as a number, zero-padded to width 2. -/
def chapterEvent (parsed_chapter : List Token) : Option (ℚ × String) := do
  let t0 ← parsed_chapter.get? 0
  let chapter_start_duration ← durFromSecs t0.start
  let t1 ← parsed_chapter.get? 1
  let n ← parseNatDigits t1.word
  some (max (chapter_start_duration - 1) 0, chapterTitle n)

/-- Helper: two-element prefix extraction. -/
theorem list_take_two {α : Type} (l : List α) (a b : α)
    (h0 : l.get? 0 = some a) (h1 : l.get? 1 = some b) : l.take 2 = [a, b] := by
  match l with
  | [] => simp at h0
  | [x] => simp at h1
  | x :: y :: rest =>
    simp only [List.get?] at h0 h1
    cases h0
    cases h1
    rfl

/-- Helper: inversion of the `Match` outcome of `after_pause_gate`: the match
is exactly the first two normalized tokens, the first a non-replacement
keyword token and the second a synthesized replacement. -/
theorem after_pause_gate_match_inv (rw : List Token → List Token)
    (b : List Token) (is_end : Bool) (i : ℕ) (ts : List Token)
    (h : after_pause_gate rw b is_end i = some (ParseResult.Match ts)) :
    ∃ ct cnt, (rw (b.drop i)).get? 0 = some ct ∧ (rw (b.drop i)).get? 1 = some cnt ∧
      ts = [ct, cnt] ∧ ct.is_chapter_token = true ∧ ct.is_replacement = false ∧
      cnt.is_replacement = true := by
  unfold after_pause_gate at h
  dsimp only at h
  split at h
  · split at h <;> simp_all
  · split at h
    · simp at h
    · split at h
      · simp at h
      · rename_i ct hct0
        split at h
        · simp at h
        · rename_i hkwb
          split at h
          · simp at h
          · rename_i hkwr
            split at h
            · simp at h
            · rename_i cnt hcnt1
              split at h
              · simp at h
              · rename_i hcntr
                split at h
                · simp at h
                · refine ⟨ct, cnt, hct0, hcnt1, ?_, ?_, ?_, ?_⟩
                  · have h2 := list_take_two _ _ _ hct0 hcnt1
                    simp only [Option.some.injEq, ParseResult.Match.injEq] at h
                    rw [← h, h2]
                  · simpa using hkwb
                  · simpa using hkwr
                  · simpa using hcntr

/-- Helper: a `Match` from `parse_chapter` always comes out of
`after_pause_gate` at the keyword index. -/
theorem parse_chapter_match_inv (p : ResultsParser)
    (rw : List Token → List Token) (is_end : Bool) (ts : List Token)
    (h : p.parse_chapter rw is_end = some (ParseResult.Match ts)) :
    ∃ i, after_pause_gate rw p.buffer is_end i = some (ParseResult.Match ts) := by
  unfold ResultsParser.parse_chapter at h
  split at h
  · split at h <;> simp_all
  · rename_i idx kw heq
    dsimp only at h
    split at h
    · split at h
      · simp at h
      · exact ⟨_, h⟩
    · exact ⟨_, h⟩

/-- Claim C3: every `Match` produced by the state machine is truncated to
exactly two tokens — a non-replacement chapter-keyword token followed by the
synthesized numeric token — and the chapter event written for it starts at
the keyword token's start minus the fixed 1-second pre-roll margin, clamped
at zero, with title "Chapter NN" formatting the parsed numeric value
zero-padded to width 2. -/
theorem match_truncation_and_event (p : ResultsParser)
    (rw : List Token → List Token) (is_end : Bool) (ts : List Token)
    (h : p.parse_chapter rw is_end = some (ParseResult.Match ts)) :
    ∃ kw num, ts = [kw, num] ∧ kw.is_chapter_token = true ∧
      kw.is_replacement = false ∧ num.is_replacement = true ∧
      (∀ n, parseNatDigits num.word = some n → 0 ≤ kw.start →
        chapterEvent ts = some (max (kw.start - 1) 0, chapterTitle n)) := by
  obtain ⟨i, hi⟩ := parse_chapter_match_inv p rw is_end ts h
  obtain ⟨ct, cnt, h0, h1, hts, hkw, hkwr, hrep⟩ :=
    after_pause_gate_match_inv rw p.buffer is_end i ts hi
  refine ⟨ct, cnt, hts, hkw, hkwr, hrep, ?_⟩
  intro n hn hpos
  subst hts
  simp [chapterEvent, durFromSecs, hn, not_lt.mpr hpos]

/-- Witness for C3 at a concrete input: the buffer "chapter two" at end of
stream matches as the keyword plus the synthesized "2", and its event is
(2s - 1s margin, "Chapter 02"). -/
theorem match_truncation_and_event_witness :
    ({ buffer := [exChapterFar, exTwo], capacity := 32 } :
        ResultsParser).parse_chapter rwToy true =
      some (ParseResult.Match [exChapterFar, exTwoRepl]) ∧
    chapterEvent [exChapterFar, exTwoRepl] = some (1, chapterTitle 2) := by
  have h : ({ buffer := [exChapterFar, exTwo], capacity := 32 } :
      ResultsParser).parse_chapter rwToy true =
        some (ParseResult.Match [exChapterFar, exTwoRepl]) := by
    with_unfolding_all decide
  refine ⟨h, ?_⟩
  obtain ⟨kw, num, hts, hkw, hkwr, hrep, hev⟩ :=
    match_truncation_and_event _ rwToy true _ h
  obtain ⟨hkw', hnum'⟩ : exChapterFar = kw ∧ exTwoRepl = num := by
    simpa using hts
  have h2 : parseNatDigits num.word = some 2 := by
    rw [← hnum']
    with_unfolding_all decide
  have hstart : (0 : ℚ) ≤ kw.start := by
    rw [← hkw']
    norm_num [exChapterFar]
  have hfin := hev 2 h2 hstart
  rw [hfin, ← hkw']
  norm_num [exChapterFar]

/-- Claim C9: for every buffer contents and every normalizer behavior, the
end-of-stream resolution `parse_chapter(is_end = true)` never returns
`Incomplete`; consequently the end-of-stream assertion in `do_parse` never
fires — a panic of the flush can only originate from `parse_chapter`
itself. -/
theorem parse_chapter_end_never_incomplete :
    (∀ (p : ResultsParser) (rw : List Token → List Token),
      p.parse_chapter rw true ≠ some ParseResult.Incomplete) ∧
    (∀ (p : ResultsParser) (rw : List Token → List Token),
      p.do_parse rw true = none → p.parse_chapter rw true = none) := by
  have main : ∀ (p : ResultsParser) (rw : List Token → List Token),
      p.parse_chapter rw true ≠ some ParseResult.Incomplete := by
    intro p rw
    unfold ResultsParser.parse_chapter
    dsimp only
    split
    · simp
    · split
      · split
        · simp
        · exact after_pause_gate_end_ne_incomplete rw p.buffer _
      · exact after_pause_gate_end_ne_incomplete rw p.buffer _
  refine ⟨main, ?_⟩
  intro p rw hnone
  unfold ResultsParser.do_parse at hnone
  cases hpc : p.parse_chapter rw true with
  | none => rfl
  | some pr =>
    rw [hpc] at hnone
    have hne : pr ≠ ParseResult.Incomplete := by
      intro h
      exact main p rw (h ▸ hpc)
    simp [hne] at hnone

/-- Witness for C9's implication at a concrete input: a buffer already
containing a replacement token makes `parse_chapter` panic at end of stream,
and `do_parse` then panics for that reason, not because of the end-of-stream
assertion. -/
theorem parse_chapter_end_never_incomplete_witness :
    ({ buffer := [exChapterFar, { exTwo with is_replacement := true }], capacity := 32 } :
        ResultsParser).parse_chapter rwToy true = none :=
  parse_chapter_end_never_incomplete.2 _ rwToy (by with_unfolding_all decide)

/-- Helper: a successful `do_parse` either clears the buffer or leaves it
unchanged with the buffer not at capacity; the capacity itself never
changes. -/
theorem do_parse_buffer_eq (p : ResultsParser) (rw : List Token → List Token)
    (is_end : Bool) (st' : ResultsParser) (em : Option ParseResult)
    (h : p.do_parse rw is_end = some (st', em)) :
    (st'.buffer = [] ∨ (st'.buffer = p.buffer ∧ p.buffer.length ≠ p.capacity)) ∧
      st'.capacity = p.capacity := by
  unfold ResultsParser.do_parse at h
  split at h
  · simp at h
  · split at h
    · simp at h
    · rename_i pr heq hne
      split at h
      all_goals simp only [Option.some.injEq, Prod.mk.injEq] at h
      · exact ⟨Or.inl (by rw [← h.1]), by rw [← h.1]⟩
      · exact ⟨Or.inl (by rw [← h.1]), by rw [← h.1]⟩
      · rename_i hinc
        by_cases hfull : p.is_full
        · rw [if_pos hfull] at h
          exact ⟨Or.inl (by rw [← h.1]), by rw [← h.1]⟩
        · rw [if_neg hfull] at h
          refine ⟨Or.inr ⟨by rw [← h.1], ?_⟩, by rw [← h.1]⟩
          simpa [ResultsParser.is_full] using hfull

/-- Helper: a successful `push` either clears the buffer or leaves exactly
the old buffer plus the pushed item, not at capacity. -/
theorem push_buffer_eq (p : ResultsParser) (rw : List Token → List Token)
    (item : Token) (st' : ResultsParser) (em : Option ParseResult)
    (h : p.push rw item = some (st', em)) :
    (st'.buffer = [] ∨
      (st'.buffer = p.buffer ++ [item] ∧ (p.buffer ++ [item]).length ≠ p.capacity)) ∧
      st'.capacity = p.capacity := by
  unfold ResultsParser.push at h
  dsimp only at h
  split at h
  · exact do_parse_buffer_eq _ rw false st' em h
  · simp at h

/-- Claim C5: from a state within capacity (which `ResultsParser::new` sets
to `2 + POST_CHAPTER_CONTEXT`), a `push` passes the length assertion (it is
exactly `do_parse` on the extended buffer), keeps the buffer strictly within
capacity whenever it succeeds, and — when the pushed buffer is at full
capacity and resolution still reports `Incomplete` — discards that
resolution exactly like a failure: the buffer is cleared (the logged
anomaly) and no result, in particular no `Match`, is emitted. -/
theorem push_capacity_and_forced_failure (p : ResultsParser)
    (rw : List Token → List Token) (item : Token)
    (hlen : p.buffer.length < p.capacity) :
    (ResultsParser.new POST_CHAPTER_CONTEXT).capacity = 2 + POST_CHAPTER_CONTEXT ∧
    p.push rw item =
      ResultsParser.do_parse { p with buffer := p.buffer ++ [item] } rw false ∧
    (∀ st' em, p.push rw item = some (st', em) →
      st'.buffer.length < p.capacity ∧ st'.capacity = p.capacity) ∧
    (ResultsParser.parse_chapter { p with buffer := p.buffer ++ [item] } rw false =
        some ParseResult.Incomplete →
      (p.buffer ++ [item]).length = p.capacity →
      p.push rw item = some ({ p with buffer := [] }, none)) := by
  have hassert : (p.buffer ++ [item]).length ≤ p.capacity := by
    simp only [List.length_append, List.length_cons, List.length_nil]
    omega
  have hpush : p.push rw item =
      ResultsParser.do_parse { p with buffer := p.buffer ++ [item] } rw false := by
    unfold ResultsParser.push
    rw [if_pos hassert]
  refine ⟨rfl, hpush, ?_, ?_⟩
  · intro st' em h
    obtain ⟨hb, hcap⟩ := push_buffer_eq p rw item st' em h
    refine ⟨?_, hcap⟩
    rcases hb with hb | ⟨hb, hne⟩
    · rw [hb]; simpa using Nat.lt_of_le_of_lt (Nat.zero_le _) hlen
    · rw [hb]
      exact lt_of_le_of_ne hassert hne
  · intro hinc hfull
    rw [hpush]
    unfold ResultsParser.do_parse
    rw [hinc]
    simp [ResultsParser.is_full, hfull]

/-- Witness for C5 at a concrete input: pushing one token onto a fresh
parser takes the asserted branch. -/
theorem push_capacity_and_forced_failure_witness :
    (ResultsParser.new POST_CHAPTER_CONTEXT).push id exHello =
      ResultsParser.do_parse { buffer := [exHello], capacity := 32 } id false :=
  (push_capacity_and_forced_failure (ResultsParser.new POST_CHAPTER_CONTEXT) id exHello
    (by with_unfolding_all decide)).2.1

/-- The buffer invariant that actually holds between ingest operations: the
buffer is empty, or a chapter-keyword token sits at index 0 or at index 1
(the latter when the remembered preceding token was pushed in front of the
keyword for the pause-gate check). -/
def chapter_near_front (b : List Token) : Prop :=
  b = [] ∨ (∃ t, b.get? 0 = some t ∧ t.is_chapter_token = true) ∨
    (∃ t, b.get? 1 = some t ∧ t.is_chapter_token = true)

/-- Helper: `chapter_near_front` survives appending, since it only looks at
the first two positions of a nonempty buffer. -/
theorem chapter_near_front_append (b : List Token) (t : Token)
    (hb : b ≠ []) (h : chapter_near_front b) : chapter_near_front (b ++ [t]) := by
  rcases h with h | ⟨u, hu, hku⟩ | ⟨u, hu, hku⟩
  · exact absurd h hb
  · refine Or.inr (Or.inl ⟨u, ?_, hku⟩)
    rw [List.get?_append (by
      cases b with
      | nil => simp at hu
      | cons x xs => simp)]
    exact hu
  · refine Or.inr (Or.inr ⟨u, ?_, hku⟩)
    rw [List.get?_append (by
      cases b with
      | nil => simp at hu
      | cons x xs =>
        cases xs with
        | nil => simp at hu
        | cons y ys => simp)]
    exact hu

/-- Helper: one `ingest_token` step preserves `chapter_near_front`. -/
theorem ingest_token_preserves (p : ResultsParser)
    (rw : List Token → List Token) (prev : Option Token) (token : Token)
    (p2 : ResultsParser) (ems : List ParseResult)
    (hinv : chapter_near_front p.buffer)
    (h : p.ingest_token rw prev token = some (p2, ems)) :
    chapter_near_front p2.buffer := by
  unfold ResultsParser.ingest_token at h
  split at h
  · rename_i hguard
    split at h
    · simp at h
    · rename_i p1 em1 h1
      split at h
      · simp at h
      · rename_i p2x em2 h2
        simp only [Option.some.injEq, Prod.mk.injEq] at h
        have hp2 : p2.buffer = p2x.buffer := by rw [h.1]
        obtain ⟨hb2, _⟩ := push_buffer_eq p1 rw token p2x em2 h2
        rcases hb2 with hb2 | ⟨hb2, _⟩
        · rw [hp2, hb2]; exact Or.inl rfl
        · rw [hp2, hb2]
          by_cases hopen : (p.is_empty && token.is_chapter_token) = true
          · have hopen' := hopen
            simp only [Bool.and_eq_true] at hopen'
            have hkw : token.is_chapter_token = true := hopen'.2
            have hpe : p.buffer = [] := by
              simpa [ResultsParser.is_empty, List.isEmpty_iff] using hopen'.1
            rw [if_pos hopen] at h1
            cases prev with
            | none =>
              simp only [Option.some.injEq, Prod.mk.injEq] at h1
              rw [← h1.1, hpe]
              exact Or.inr (Or.inl ⟨token, rfl, hkw⟩)
            | some pt =>
              obtain ⟨hb1, _⟩ := push_buffer_eq p rw pt p1 em1 h1
              rcases hb1 with hb1 | ⟨hb1, _⟩
              · rw [hb1]
                exact Or.inr (Or.inl ⟨token, rfl, hkw⟩)
              · rw [hb1, hpe]
                exact Or.inr (Or.inr ⟨token, rfl, hkw⟩)
          · rw [if_neg hopen] at h1
            simp only [Option.some.injEq, Prod.mk.injEq] at h1
            have hp1 : p1.buffer = p.buffer := by rw [← h1.1]
            rw [hp1]
            have hne : p.buffer ≠ [] := by
              intro hnil
              have hie : p.is_empty = true := by
                simp [ResultsParser.is_empty, hnil]
              simp only [Bool.or_eq_true] at hguard
              rcases hguard with hdata | hkwt
              · simp [ResultsParser.has_data, hie] at hdata
              · exact hopen (by simp [hie, hkwt])
            exact chapter_near_front_append p.buffer token hne hinv
  · simp only [Option.some.injEq, Prod.mk.injEq] at h
    rw [← h.1]
    exact hinv

/-- Amended claim C4 (the invariant that actually holds): between ingest
operations the buffer is empty or holds the chapter-keyword token at index 0
or index 1 — the token immediately preceding the match is not tracked
outside the buffer but pushed into it, immediately before the keyword, where
the pause-gate check reads it. -/
theorem ingest_tokens_chapter_near_front (rw : List Token → List Token)
    (ts : List Token) (p : ResultsParser) (prev : Option Token)
    (p' : ResultsParser) (pv : Option Token) (ems : List ParseResult)
    (hinv : chapter_near_front p.buffer)
    (h : p.ingest_tokens rw prev ts = some (p', pv, ems)) :
    chapter_near_front p'.buffer := by
  induction ts generalizing p prev p' pv ems with
  | nil =>
    unfold ResultsParser.ingest_tokens at h
    simp only [Option.some.injEq, Prod.mk.injEq] at h
    rw [← h.1]
    exact hinv
  | cons t rest ih =>
    unfold ResultsParser.ingest_tokens at h
    split at h
    · simp at h
    · rename_i p1 ems1 h1
      split at h
      · simp at h
      · rename_i p2 pv2 ems2 h2
        simp only [Option.some.injEq, Prod.mk.injEq] at h
        have hinv1 := ingest_token_preserves p rw prev t p1 ems1 hinv h1
        have hres := ih p1 (some t) p2 pv2 ems2 hinv1 h2
        rw [← h.1]
        exact hres

/-- Witness for the amended C4 at a concrete input: ingesting
"hello … chapter" from a fresh parser yields a buffer satisfying the
invariant (keyword at index 1). -/
theorem ingest_tokens_chapter_near_front_witness :
    chapter_near_front [exHello, exChapterFar] :=
  ingest_tokens_chapter_near_front id [exHello, exChapterFar]
    (ResultsParser.new POST_CHAPTER_CONTEXT) none
    { buffer := [exHello, exChapterFar], capacity := 32 } (some exChapterFar) []
    (Or.inl rfl) (by with_unfolding_all decide)

/-- Counterexample to claim C4 as stated: after ingesting the tokens
"hello" (ending at 1s) and "chapter" (starting at 2s) into a fresh parser,
the match buffer is `[hello, chapter]` — nonempty with a first element that
is not a chapter-keyword token, because `ingest_results` pushes the
preceding token into the buffer rather than tracking it outside. -/
theorem buffer_first_not_keyword_counterexample :
    (ResultsParser.new POST_CHAPTER_CONTEXT).ingest_tokens id none [exHello, exChapterFar] =
      some ({ buffer := [exHello, exChapterFar], capacity := 32 },
        some exChapterFar, []) ∧
    exHello.is_chapter_token = false := by
  constructor
  · with_unfolding_all decide
  · with_unfolding_all decide

/-! The parse-result processor thread of `chapterize` and the
metadata-extraction path of `extract_chapters`, for the zeroth-chapter
parity rule. -/

/-- One received parse result handled by the processor loop in `chapterize`
(`src/chapterize/mod.rs` lines 126-155): `Failure` is skipped, `Incomplete`
is `unreachable!` (`none`), and a `Match` yields its chapter event (with
panicking unwraps modelled by the inner `none` propagating to `none`). -/
def processOne (pr : ParseResult) : Option (Option (ℚ × String)) :=
  match pr with
  | ParseResult.Failure => some none
  | ParseResult.Incomplete => none
  | ParseResult.Match parsed_chapter => (chapterEvent parsed_chapter).map some

/-- The track sequence written by the parse-result processor thread in the
ASR path (`src/chapterize/mod.rs` lines 117-156): after the header it always
writes the track (0s, "Chapter 00"), then one track per received `Match`. -/
def processParseResults (results : List ParseResult) : Option (List (ℚ × String)) :=
  (results.mapM processOne).map
    (fun evs => ((0 : ℚ), "Chapter 00") :: evs.reduceOption)

/-- An embedded chapter as surfaced by ffprobe
(`src/extract/ffprobe.rs`), with start/end already converted to seconds. -/
structure FfChapter where
  id : ℤ
  start : ℚ
  stop : ℚ
  title? : Option String
deriving DecidableEq, Repr

/-- `ffprobe_duration_difference_workaround` (`src/extract/mod.rs` lines
22-25): saturating subtraction of 25ms. -/
def ffprobe_duration_difference_workaround (duration : ℚ) : ℚ :=
  max (duration - 1/40) 0

/-- The chapter-start events fanned out to every writer by
`extract_chapters` (`src/extract/mod.rs` lines 71-97): a synthetic zeroth
chapter exactly when the first embedded chapter's workaround-adjusted start
is nonzero, then one event per embedded chapter (title defaulting to
"Untitled"); an empty chapter list writes nothing (the early
`Ok(false)` return). -/
def extract_chapter_events (chapters : List FfChapter) : List (ℚ × String) :=
  match chapters with
  | [] => []
  | first :: _ =>
    (if ffprobe_duration_difference_workaround first.start ≠ 0 then
        [((0 : ℚ), "Chapter 00")]
      else []) ++
      chapters.map (fun c =>
        (ffprobe_duration_difference_workaround c.start, c.title?.getD "Untitled"))

/-- A keyword token covering the very start of the file. -/
def exChapterZero : Token :=
  { start := 0, stop := 1/2, word := "chapter", is_replacement := false }

/-- A synthesized numeric token "1". -/
def exOneRepl : Token := { start := 1/2, stop := 1, word := "1", is_replacement := true }

/-- An embedded chapter starting at 1s. -/
def exFfChapter : FfChapter := { id := 0, start := 1, stop := 2, title? := none }

/-- Counterexample to claim C6 as stated: in the ASR path the synthetic
zeroth event (0, "Chapter 00") is written even when the transcript opens
with a chapter marker covering the start of the file — here a detected
chapter whose keyword starts at 0s, whose own event also lands at 0s. -/
theorem zeroth_chapter_counterexample :
    processParseResults [ParseResult.Match [exChapterZero, exOneRepl]] =
      some [((0 : ℚ), "Chapter 00"), ((0 : ℚ), "Chapter 01")] ∧
    exChapterZero.start = 0 := by
  constructor
  · with_unfolding_all decide
  · with_unfolding_all decide

/-- Amended claim C6: in the ASR path the synthetic zeroth event
(0, "Chapter 00") is always written, unconditionally, as the first track; in
the metadata-extraction path the synthetic zeroth event is prepended exactly
when the first embedded chapter's start, after the 25ms ffprobe workaround
subtraction, is not zero. -/
theorem zeroth_chapter_amended (results : List ParseResult)
    (evs : List (ℚ × String)) (h : processParseResults results = some evs) :
    evs.get? 0 = some ((0 : ℚ), "Chapter 00") ∧
    (∀ (first : FfChapter) (rest : List FfChapter),
      (ffprobe_duration_difference_workaround first.start ≠ 0 →
        extract_chapter_events (first :: rest) =
          ((0 : ℚ), "Chapter 00") :: (first :: rest).map (fun c =>
            (ffprobe_duration_difference_workaround c.start,
              c.title?.getD "Untitled"))) ∧
      (ffprobe_duration_difference_workaround first.start = 0 →
        extract_chapter_events (first :: rest) =
          (first :: rest).map (fun c =>
            (ffprobe_duration_difference_workaround c.start,
              c.title?.getD "Untitled")))) := by
  constructor
  · unfold processParseResults at h
    cases hm : results.mapM processOne with
    | none => rw [hm] at h; simp [Option.map] at h
    | some l =>
      rw [hm] at h
      simp only [Option.map, Option.some.injEq] at h
      rw [← h]
      rfl
  · intro first rest
    constructor
    · intro hne
      unfold extract_chapter_events
      dsimp only
      rw [if_pos hne]
      rfl
    · intro heq
      unfold extract_chapter_events
      dsimp only
      rw [if_neg (by simp [heq])]
      rfl

/-- Witness for the amended C6 at concrete inputs: a lone `Failure` yields
exactly the zeroth track, and a single embedded chapter at 1s gets the
synthetic zeroth chapter prepended. -/
theorem zeroth_chapter_amended_witness :
    ([((0 : ℚ), "Chapter 00")] : List (ℚ × String)).get? 0 =
      some ((0 : ℚ), "Chapter 00") ∧
    extract_chapter_events [exFfChapter] =
      ((0 : ℚ), "Chapter 00") :: [exFfChapter].map (fun c =>
        (ffprobe_duration_difference_workaround c.start,
          c.title?.getD "Untitled")) := by
  have h := zeroth_chapter_amended [ParseResult.Failure] [((0 : ℚ), "Chapter 00")]
    (by with_unfolding_all decide)
  exact ⟨h.1, (h.2 exFfChapter []).1 (by with_unfolding_all decide)⟩

/-! The decode-error handling of `AudioProvider::next`
(`src/audio_provider.rs` lines 138-153). -/

/-- The error variants of `symphonia::core::errors::Error` as discriminated
by `AudioProvider::next`. -/
inductive SymphoniaError where
  | IoError
  | DecodeError
  | SeekError
  | Unsupported
  | LimitError
  | ResetRequired
deriving DecidableEq, Repr

/-- What `AudioProvider::next` does with one packet's decode result: yield
the decoded samples, skip the packet and continue the loop, or abort the
whole pipeline (panic). -/
inductive DecodeAction where
  | decoded (samples : List ℤ)
  | skip
  | fatal
deriving DecidableEq, Repr

/-- The `match self.decoder.decode(&packet)` arms of `AudioProvider::next`
(`src/audio_provider.rs` lines 138-153): `Ok` yields, `Error::IoError(_)`
and `Error::DecodeError(_)` both skip the packet, anything else panics. -/
def handle_decode_result : Except SymphoniaError (List ℤ) → DecodeAction
  | Except.ok decoded => DecodeAction.decoded decoded
  | Except.error SymphoniaError.IoError => DecodeAction.skip
  | Except.error SymphoniaError.DecodeError => DecodeAction.skip
  | Except.error _ => DecodeAction.fatal

/-- The decode loop of `AudioProvider::next` over the remaining packets'
decode results: skipping continues with the next packet, a fatal error is a
panic (`none`), exhaustion is end of stream. -/
def decode_loop : List (Except SymphoniaError (List ℤ)) → Option (Option (List ℤ))
  | [] => some none
  | r :: rest =>
    match handle_decode_result r with
    | DecodeAction.decoded d => some (some d)
    | DecodeAction.skip => decode_loop rest
    | DecodeAction.fatal => none

/-- Counterexample to claim C8 as stated: a non-I/O decode error
(`Error::DecodeError`, invalid data) is skipped, not fatal — the loop drops
the packet and decodes the next one. -/
theorem decode_error_not_fatal_counterexample :
    handle_decode_result (Except.error SymphoniaError.DecodeError) =
      DecodeAction.skip ∧
    DecodeAction.skip ≠ DecodeAction.fatal ∧
    decode_loop [Except.error SymphoniaError.DecodeError, Except.ok [1]] =
      some (some [1]) := by
  refine ⟨rfl, by decide, rfl⟩

/-- Amended claim C8: both I/O-classified errors and invalid-data decode
errors on a single media packet cause only that packet to be skipped with
decoding continuing; every other decode error class is fatal and aborts the
pipeline. -/
theorem decode_error_handling_amended :
    handle_decode_result (Except.error SymphoniaError.IoError) = DecodeAction.skip ∧
    handle_decode_result (Except.error SymphoniaError.DecodeError) = DecodeAction.skip ∧
    handle_decode_result (Except.error SymphoniaError.SeekError) = DecodeAction.fatal ∧
    handle_decode_result (Except.error SymphoniaError.Unsupported) = DecodeAction.fatal ∧
    handle_decode_result (Except.error SymphoniaError.LimitError) = DecodeAction.fatal ∧
    handle_decode_result (Except.error SymphoniaError.ResetRequired) = DecodeAction.fatal ∧
    (∀ rest, decode_loop (Except.error SymphoniaError.IoError :: rest) = decode_loop rest) ∧
    (∀ rest, decode_loop (Except.error SymphoniaError.DecodeError :: rest) = decode_loop rest) ∧
    (∀ rest, decode_loop (Except.error SymphoniaError.Unsupported :: rest) = none) := by
  refine ⟨rfl, rfl, rfl, rfl, rfl, rfl, fun rest => rfl, fun rest => rfl, fun rest => rfl⟩

/-! `FixedVecDeque` (`src/fixed_vec_deque.rs`). -/

/-- `FixedVecDeque`: a `VecDeque` (front at the list head) plus the
configured maximum length. -/
structure FixedVecDeque (α : Type) where
  inner : List α
  max_len : ℕ
deriving DecidableEq, Repr

/-- `FixedVecDeque::with_max_len`. -/
def FixedVecDeque.with_max_len {α : Type} (max_len : ℕ) : FixedVecDeque α :=
  { inner := [], max_len := max_len }

/-- `FixedVecDeque::push_back`: pop the front if at maximum length
(`pop_front` of an empty deque is `none`), then append the value. Returns
the popped element alongside the new deque. -/
def FixedVecDeque.push_back {α : Type} (d : FixedVecDeque α) (value : α) :
    Option α × FixedVecDeque α :=
  let popped := if d.inner.length = d.max_len then d.inner.head? else none
  let inner' := if d.inner.length = d.max_len then d.inner.tail else d.inner
  (popped, { inner := inner' ++ [value], max_len := d.max_len })

/-- A sequence of `push_back` calls, keeping only the final deque. -/
def FixedVecDeque.push_all {α : Type} (d : FixedVecDeque α) (vs : List α) :
    FixedVecDeque α :=
  vs.foldl (fun acc v => (acc.push_back v).2) d

/-- Counterexample to claim C10 as stated: with `max_len = 0` the deque is
at its maximum length (zero elements) before a push, yet `push_back`
returns `none` — and the push makes the length exceed `max_len`. -/
theorem push_back_zero_max_len_counterexample :
    ((FixedVecDeque.with_max_len 0 : FixedVecDeque ℕ).inner.length =
      (FixedVecDeque.with_max_len 0 : FixedVecDeque ℕ).max_len) ∧
    ((FixedVecDeque.with_max_len 0 : FixedVecDeque ℕ).push_back 7).1 = none ∧
    (((FixedVecDeque.with_max_len 0 : FixedVecDeque ℕ).push_back 7).2.inner.length = 1) ∧
    ¬ (1 ≤ (0 : ℕ)) := by
  refine ⟨rfl, rfl, rfl, by decide⟩

/-- Helper: one `push_back` from within bounds stays within bounds when
`max_len ≥ 1`. -/
theorem push_back_length_le {α : Type} (d : FixedVecDeque α) (v : α)
    (hm : 1 ≤ d.max_len) (hl : d.inner.length ≤ d.max_len) :
    (d.push_back v).2.inner.length ≤ d.max_len ∧
      (d.push_back v).2.max_len = d.max_len := by
  unfold FixedVecDeque.push_back
  dsimp only
  by_cases hfull : d.inner.length = d.max_len
  · rw [if_pos hfull]
    refine ⟨?_, rfl⟩
    simp only [List.length_append, List.length_cons, List.length_nil, List.length_tail]
    omega
  · rw [if_neg hfull]
    refine ⟨?_, rfl⟩
    simp only [List.length_append, List.length_cons, List.length_nil]
    omega

/-- Amended claim C10: for every `FixedVecDeque` with `max_len ≥ 1`, any
sequence of `push_back` calls starting from `with_max_len` keeps the length
at most `max_len`, and a single `push_back` from a within-bounds state
returns the popped front element exactly when the deque was at `max_len`
(the window slides oldest-first: the front is popped and the value appended
to the back), returning `none` otherwise. -/
theorem fixed_vec_deque_amended {α : Type} (d : FixedVecDeque α) (v : α)
    (hm : 1 ≤ d.max_len) (hl : d.inner.length ≤ d.max_len) :
    ((d.push_back v).2.inner.length ≤ d.max_len ∧
      (d.push_back v).2.max_len = d.max_len) ∧
    (d.inner.length = d.max_len →
      ∃ x xs, d.inner = x :: xs ∧ (d.push_back v).1 = some x ∧
        (d.push_back v).2.inner = xs ++ [v]) ∧
    (d.inner.length ≠ d.max_len → (d.push_back v).1 = none) ∧
    (∀ (n : ℕ) (vs : List α), 1 ≤ n →
      (FixedVecDeque.push_all (FixedVecDeque.with_max_len n) vs).inner.length ≤ n) := by
  refine ⟨push_back_length_le d v hm hl, ?_, ?_, ?_⟩
  · intro hfull
    cases hd : d.inner with
    | nil => rw [hd] at hfull; simp at hfull; omega
    | cons x xs =>
      refine ⟨x, xs, rfl, ?_, ?_⟩
      · unfold FixedVecDeque.push_back
        dsimp only
        rw [if_pos hfull, hd]
        rfl
      · unfold FixedVecDeque.push_back
        dsimp only
        rw [if_pos hfull, hd]
        rfl
  · intro hne
    unfold FixedVecDeque.push_back
    dsimp only
    rw [if_neg hne]
  · intro n vs hn
    have main : ∀ (vs : List α) (acc : FixedVecDeque α), acc.max_len = n →
        acc.inner.length ≤ n → (acc.push_all vs).inner.length ≤ n := by
      intro vs
      induction vs with
      | nil => intro acc hcap hlen; simpa [FixedVecDeque.push_all] using hlen
      | cons w ws ih =>
        intro acc hcap hlen
        have hstep := push_back_length_le acc w (hcap ▸ hn) (hcap ▸ hlen)
        have : (FixedVecDeque.push_all acc (w :: ws)) =
            FixedVecDeque.push_all (acc.push_back w).2 ws := rfl
        rw [this]
        exact ih (acc.push_back w).2 (by rw [hstep.2, hcap]) (hcap ▸ hstep.1)
    exact main vs (FixedVecDeque.with_max_len n) rfl (by simp [FixedVecDeque.with_max_len])

/-- Witness for the amended C10 at a concrete input: a full two-element
deque slides, popping the oldest element. -/
theorem fixed_vec_deque_amended_witness :
    (({ inner := [10, 20], max_len := 2 } : FixedVecDeque ℕ).push_back 30).1 = some 10 ∧
    (({ inner := [10, 20], max_len := 2 } : FixedVecDeque ℕ).push_back 30).2.inner = [20, 30] := by
  obtain ⟨-, hfull, -, -⟩ :=
    fixed_vec_deque_amended ({ inner := [10, 20], max_len := 2 } : FixedVecDeque ℕ) 30
      (by decide) (by decide)
  obtain ⟨x, xs, hxs, hpop, hinner⟩ := hfull (by decide)
  obtain ⟨hx, hxs'⟩ : x = 10 ∧ xs = [20] := by
    constructor <;> [exact (List.cons.injEq ..).mp hxs.symm |>.1;
      exact (List.cons.injEq ..).mp hxs.symm |>.2]
  constructor
  · rw [hpop, hx]
  · rw [hinner, hxs']
    rfl

/-! The alternative selector `get_best_alt`
(`src/chapterize/results_parser.rs` lines 15-76). -/

/-- `vosk::WordInAlternative`: one recognized word with timing. -/
structure WordInAlternative where
  word : String
  start : ℚ
  stop : ℚ
deriving DecidableEq, Repr

/-- `vosk::Alternative`: one ranked hypothesis — a confidence and its word
sequence. -/
structure Alternative where
  confidence : ℚ
  result : List WordInAlternative
deriving DecidableEq, Repr

/-- The free function `is_chapter_token` on `WordInAlternative`
(`src/chapterize/token.rs` lines 71-73). -/
def is_chapter_token (wia : WordInAlternative) : Bool :=
  wia.word = "chapter" || wia.word = "chapters"

/-- `Token::from(&WordInAlternative)` (`src/chapterize/token.rs` lines
25-34); `from` is a Lean keyword, hence the prime. -/
def Token.from' (wia : WordInAlternative) : Token :=
  { start := wia.start, stop := wia.stop, word := wia.word, is_replacement := false }

/-- `alt_contains_potential_match` (`src/chapterize/results_parser.rs`). -/
def alt_contains_potential_match (alt : Alternative) : Bool :=
  alt.result.any is_chapter_token

/-- An occurrence yielded by text2num's `find_numbers_iter`: the word offset
at which the number phrase starts and its matched text. -/
structure Occurrence where
  start : ℕ
  text : String
deriving DecidableEq, Repr

/-- The `score_alt` closure inside `get_best_alt`
(`src/chapterize/results_parser.rs` lines 32-71): the confidence, plus 1.0
when the first keyword occurrence is "chapter" or 0.9 when "chapters"
(`unreachable!` otherwise — `none`), plus, when the first number occurrence
among the following words starts at word offset 0, the number of
space-separated words of its matched text. The external `find_numbers_iter`
is the parameter `findOcc`. -/
def score_alt (findOcc : List Token → Option Occurrence) (alt : Alternative) :
    Option ℚ :=
  match find_position is_chapter_token alt.result with
  | none => none
  | some (chap_index, chap_word) =>
    match (if chap_word.word = "chapter" then some (1 : ℚ)
        else if chap_word.word = "chapters" then some (9/10 : ℚ)
        else none) with
    | none => none
    | some keyword_bonus =>
      let following_words := (alt.result.drop (chap_index + 1)).map Token.from'
      let number_bonus : ℚ :=
        match findOcc following_words with
        | some occ =>
          if occ.start = 0 then ((occ.text.splitOn " ").length : ℚ) else 0
        | none => 0
      some (alt.confidence + keyword_bonus + number_bonus)

/-- `get_best_alt` (`src/chapterize/results_parser.rs` lines 20-76),
parametric in text2num's number-phrase search: keep the alternatives
containing a chapter keyword; with none, return the top-ranked alternative
(`none` — a panic — exactly when the slice is empty); otherwise score every
candidate (`none` when a score computation panics), stable-sort ascending by
the cached score, and return the last element. -/
def get_best_alt (findOcc : List Token → Option Occurrence)
    (alts : List Alternative) : Option Alternative :=
  let pot_matches := alts.filter alt_contains_potential_match
  if pot_matches.isEmpty then alts.get? 0
  else
    match pot_matches.mapM
        (fun alt => (score_alt findOcc alt).map (fun s => (s, alt))) with
    | none => none
    | some scored =>
      ((scored.insertionSort (fun p q => p.1 ≤ q.1)).getLast?).map Prod.snd

/-- The later-biased maximum: the element Rust's stable ascending sort
leaves in last position — the maximum of the keys, with exact ties resolved
in favor of the element arriving later. -/
def choose_best {α : Type} (key : α → ℚ) (z : α) (zs : List α) : α :=
  zs.foldl (fun acc y => if key acc ≤ key y then y else acc) z

/-- Helper: unfolding `choose_best` one step from the left. -/
theorem choose_best_cons {α : Type} (key : α → ℚ) (z w : α) (ws : List α) :
    choose_best key z (w :: ws) =
      if key z ≤ key (choose_best key w ws) then choose_best key w ws else z := by
  induction ws generalizing z w with
  | nil => simp [choose_best]
  | cons u us ih =>
    have hl : choose_best key z (w :: u :: us) =
        choose_best key (if key z ≤ key w then w else z) (u :: us) := by
      simp [choose_best, List.foldl_cons]
    rw [hl, ih, ih w u]
    by_cases h1 : key z ≤ key w
    · rw [if_pos h1]
      by_cases h2 : key w ≤ key (choose_best key u us)
      · rw [if_pos h2, if_pos (le_trans h1 h2)]
      · rw [if_neg h2, if_pos h1]
    · rw [if_neg h1]
      by_cases h2 : key w ≤ key (choose_best key u us)
      · rw [if_pos h2]
      · rw [if_neg h2, if_neg h1,
          if_neg (fun h3 => h1 (le_trans h3 (le_of_lt (lt_of_not_le h2))))]

/-- Helper: `choose_best` is one of the candidates. -/
theorem choose_best_mem {α : Type} (key : α → ℚ) :
    ∀ (zs : List α) (z : α), choose_best key z zs ∈ z :: zs := by
  intro zs
  induction zs with
  | nil => intro z; simp [choose_best]
  | cons w ws ih =>
    intro z
    have hl : choose_best key z (w :: ws) =
        choose_best key (if key z ≤ key w then w else z) ws := by
      simp [choose_best, List.foldl_cons]
    rw [hl]
    rcases List.mem_cons.mp (ih (if key z ≤ key w then w else z)) with h | h
    · rw [h]
      by_cases hzw : key z ≤ key w
      · rw [if_pos hzw]
        exact List.mem_cons.mpr (Or.inr (List.mem_cons_self w ws))
      · rw [if_neg hzw]
        exact List.mem_cons_self z _
    · exact List.mem_cons.mpr (Or.inr (List.mem_cons.mpr (Or.inr h)))

/-- Helper: `choose_best` attains the maximum key. -/
theorem choose_best_max {α : Type} (key : α → ℚ) :
    ∀ (zs : List α) (z y : α), y ∈ z :: zs → key y ≤ key (choose_best key z zs) := by
  intro zs
  induction zs with
  | nil =>
    intro z y hy
    simp only [List.mem_singleton] at hy
    rw [hy]
    exact le_refl _
  | cons w ws ih =>
    intro z y hy
    have hl : choose_best key z (w :: ws) =
        choose_best key (if key z ≤ key w then w else z) ws := by
      simp [choose_best, List.foldl_cons]
    rw [hl]
    have hhead : key (if key z ≤ key w then w else z) ≤
        key (choose_best key (if key z ≤ key w then w else z) ws) :=
      ih _ _ (List.mem_cons_self _ _)
    rcases List.mem_cons.mp hy with hyz | hy'
    · rw [hyz]
      refine le_trans ?_ hhead
      by_cases hzw : key z ≤ key w
      · rw [if_pos hzw]; exact hzw
      · rw [if_neg hzw]
    · rcases List.mem_cons.mp hy' with hyw | hyin
      · rw [hyw]
        refine le_trans ?_ hhead
        by_cases hzw : key z ≤ key w
        · rw [if_pos hzw]
        · rw [if_neg hzw]
          exact le_of_lt (lt_of_not_le hzw)
      · exact ih _ _ (List.mem_cons.mpr (Or.inr hyin))

/-- Helper: `choose_best` sits at a position after which every key is
strictly smaller — exact ties are resolved toward the later candidate. -/
theorem choose_best_later_strict {α : Type} (key : α → ℚ) :
    ∀ (zs : List α) (z : α), ∃ (i : ℕ) (hi : i < (z :: zs).length),
      (z :: zs).get ⟨i, hi⟩ = choose_best key z zs ∧
      ∀ (j : ℕ) (hj : j < (z :: zs).length), i < j →
        key ((z :: zs).get ⟨j, hj⟩) < key (choose_best key z zs) := by
  intro zs
  induction zs with
  | nil =>
    intro z
    refine ⟨0, by simp, by simp [choose_best], ?_⟩
    intro j hj hij
    simp only [List.length_singleton] at hj
    omega
  | cons w ws ih =>
    intro z
    by_cases hc : key z ≤ key (choose_best key w ws)
    · obtain ⟨i, hi, heq, hlater⟩ := ih w
      refine ⟨i + 1, by simpa using Nat.succ_lt_succ hi, ?_, ?_⟩
      · rw [choose_best_cons, if_pos hc]
        simpa using heq
      · intro j hj hij
        rw [choose_best_cons, if_pos hc]
        cases j with
        | zero => omega
        | succ j' =>
          have hj' : j' < (w :: ws).length := by simpa using hj
          have hstep := hlater j' hj' (by omega)
          simpa using hstep
    · refine ⟨0, by simp, ?_, ?_⟩
      · rw [choose_best_cons, if_neg hc]
        rfl
      · intro j hj hij
        rw [choose_best_cons, if_neg hc]
        cases j with
        | zero => omega
        | succ j' =>
          have hj' : j' < (w :: ws).length := by simpa using hj
          have hle : key ((w :: ws).get ⟨j', hj'⟩) ≤ key (choose_best key w ws) :=
            choose_best_max key ws w _ (List.get_mem (w :: ws) j' hj')
          have hgets : (z :: w :: ws).get ⟨j' + 1, hj⟩ = (w :: ws).get ⟨j', hj'⟩ := rfl
          rw [hgets]
          exact lt_of_le_of_lt hle (lt_of_not_le hc)

/-- Helper: inserting into a sorted list either keeps the old last element
(when it is at least the new key) or puts the new element last. -/
theorem getLast?_orderedInsert {α : Type} (key : α → ℚ) (x : α) :
    ∀ (l : List α) (last : α),
      l.Sorted (fun a b => key a ≤ key b) → l.getLast? = some last →
      (l.orderedInsert (fun a b => key a ≤ key b) x).getLast? =
        some (if key x ≤ key last then last else x) := by
  intro l
  induction l with
  | nil => intro last _ hl; simp at hl
  | cons y l' ihl =>
    intro last hs hl
    cases l' with
    | nil =>
      have hly : y = last := by
        simpa using hl
      subst hly
      by_cases hxy : key x ≤ key y
      · have hoi : List.orderedInsert (fun a b => key a ≤ key b) x [y] = [x, y] := by
          simp [List.orderedInsert, hxy]
        rw [hoi, List.getLast?_cons_cons, if_pos hxy]
        simp
      · have hoi : List.orderedInsert (fun a b => key a ≤ key b) x [y] = [y, x] := by
          simp [List.orderedInsert, hxy]
        rw [hoi, List.getLast?_cons_cons, if_neg hxy]
        simp
    | cons y2 ys =>
      have hl' : (y2 :: ys).getLast? = some last := by
        rw [← List.getLast?_cons_cons (a := y)]
        exact hl
      have hmem : last ∈ y2 :: ys := by
        obtain ⟨hne, heq⟩ := List.mem_getLast?_eq_getLast
          (show last ∈ (y2 :: ys).getLast? from by rw [hl']; exact rfl)
        rw [heq]
        exact List.getLast_mem hne
      have hylast : key y ≤ key last :=
        List.rel_of_sorted_cons hs last hmem
      by_cases hxy : key x ≤ key y
      · have hoi : List.orderedInsert (fun a b => key a ≤ key b) x (y :: y2 :: ys) =
            x :: y :: y2 :: ys := by
          rw [List.orderedInsert, if_pos hxy]
        rw [hoi, List.getLast?_cons_cons, List.getLast?_cons_cons, hl',
          if_pos (le_trans hxy hylast)]
      · have hoi : List.orderedInsert (fun a b => key a ≤ key b) x (y :: y2 :: ys) =
            y :: List.orderedInsert (fun a b => key a ≤ key b) x (y2 :: ys) := by
          rw [List.orderedInsert, if_neg hxy]
        rw [hoi]
        have hrec := ihl last hs.of_cons hl'
        cases ho : List.orderedInsert (fun a b => key a ≤ key b) x (y2 :: ys) with
        | nil =>
          have hlen := List.orderedInsert_length (r := fun a b => key a ≤ key b)
            (y2 :: ys) x
          rw [ho] at hlen
          simp at hlen
        | cons c cs =>
          rw [List.getLast?_cons_cons, ← ho]
          exact hrec

/-- Helper: the last element of the stable ascending insertion sort is the
later-biased maximum of the input. -/
theorem getLast?_insertionSort_choose {α : Type} (key : α → ℚ) :
    ∀ (zs : List α) (z : α),
      (List.insertionSort (fun a b => key a ≤ key b) (z :: zs)).getLast? =
        some (choose_best key z zs) := by
  haveI : IsTotal α (fun a b => key a ≤ key b) := ⟨fun a b => le_total (key a) (key b)⟩
  haveI : IsTrans α (fun a b => key a ≤ key b) := ⟨fun a b c hab hbc => le_trans hab hbc⟩
  intro zs
  induction zs with
  | nil => intro z; simp [choose_best]
  | cons w ws ih =>
    intro z
    have hins : List.insertionSort (fun a b => key a ≤ key b) (z :: w :: ws) =
        List.orderedInsert (fun a b => key a ≤ key b) z
          (List.insertionSort (fun a b => key a ≤ key b) (w :: ws)) := rfl
    have hsorted := List.sorted_insertionSort (fun a b => key a ≤ key b) (w :: ws)
    rw [hins, getLast?_orderedInsert key z _ _ hsorted (ih w), choose_best_cons]

/-- Helper: a positive `any` yields a first `find_position` hit, whose
element satisfies the predicate. -/
theorem find_position_some_of_any {α : Type} (p : α → Bool) :
    ∀ (l : List α), l.any p = true →
      ∃ i x, find_position p l = some (i, x) ∧ p x = true := by
  intro l
  induction l with
  | nil => intro h; simp at h
  | cons y ys ih =>
    intro h
    by_cases hy : p y
    · exact ⟨0, y, by simp [find_position, hy], hy⟩
    · have hys : ys.any p = true := by
        simp only [List.any_cons, hy, Bool.false_or] at h
        exact h
      obtain ⟨i, x, hfp, hpx⟩ := ih hys
      exact ⟨i + 1, x, by simp [find_position, hy, hfp], hpx⟩

/-- Helper: every keyword-containing alternative gets a score — the
`unreachable!` in `score_alt` cannot fire. -/
theorem score_alt_isSome (findOcc : List Token → Option Occurrence)
    (a : Alternative) (h : alt_contains_potential_match a = true) :
    (score_alt findOcc a).isSome = true := by
  obtain ⟨i, w, hfp, hpw⟩ := find_position_some_of_any is_chapter_token a.result h
  unfold score_alt
  rw [hfp]
  simp only [is_chapter_token, Bool.or_eq_true, decide_eq_true_eq] at hpw
  by_cases hc : w.word = "chapter"
  · simp [hc]
  · have hcs : w.word = "chapters" := hpw.resolve_left hc
    simp [hc, hcs]

/-- Helper: when every score is defined, the `mapM` of score/alternative
pairs succeeds with the scores read off by `getD`. -/
theorem mapM_scored (findOcc : List Token → Option Occurrence) :
    ∀ (l : List Alternative), (∀ a ∈ l, (score_alt findOcc a).isSome = true) →
      l.mapM (fun alt => (score_alt findOcc alt).map (fun s => (s, alt))) =
        some (l.map (fun a => ((score_alt findOcc a).getD 0, a))) := by
  intro l
  induction l with
  | nil => intro _; rfl
  | cons a as ih =>
    intro h
    obtain ⟨s, hs⟩ := Option.isSome_iff_exists.mp (h a (List.mem_cons_self a as))
    have hrest := ih (fun b hb => h b (List.mem_cons.mpr (Or.inr hb)))
    rw [List.mapM_cons, hs, hrest]
    simp [hs]

/-- Helper: the full characterization of taking the last element of the
stable score-sort of a nonempty candidate list: it is a candidate attaining
the maximum score, and every later candidate scores strictly lower. -/
theorem scored_last_characterization (findOcc : List Token → Option Occurrence)
    (pot : List Alternative) (hne : pot ≠ [])
    (hall : ∀ a ∈ pot, (score_alt findOcc a).isSome = true) :
    ∀ m, (((pot.map (fun a => ((score_alt findOcc a).getD 0, a))).insertionSort
        (fun p q => p.1 ≤ q.1)).getLast?).map Prod.snd = some m →
      ∃ (s : ℚ) (i : ℕ) (hi : i < pot.length),
        score_alt findOcc m = some s ∧ pot.get ⟨i, hi⟩ = m ∧
        ∀ (j : ℕ) (hj : j < pot.length), ∃ sj,
          score_alt findOcc (pot.get ⟨j, hj⟩) = some sj ∧ sj ≤ s ∧
            (i < j → sj < s) := by
  cases pot with
  | nil => exact absurd rfl hne
  | cons a0 rest =>
    intro m hm
    have hsome : ∀ a ∈ a0 :: rest,
        score_alt findOcc a = some ((score_alt findOcc a).getD 0) := by
      intro a ha
      have hsa := hall a ha
      cases hx : score_alt findOcc a with
      | none => rw [hx] at hsa; simp at hsa
      | some v => simp
    rw [List.map_cons] at hm
    have hsort :
        (List.insertionSort (fun p q : ℚ × Alternative => p.1 ≤ q.1)
            (((score_alt findOcc a0).getD 0, a0) ::
              rest.map (fun a => ((score_alt findOcc a).getD 0, a)))).getLast? =
          some (choose_best (fun p : ℚ × Alternative => p.1)
            ((score_alt findOcc a0).getD 0, a0)
            (rest.map (fun a => ((score_alt findOcc a).getD 0, a)))) :=
      getLast?_insertionSort_choose (fun p : ℚ × Alternative => p.1)
        (rest.map (fun a => ((score_alt findOcc a).getD 0, a)))
        ((score_alt findOcc a0).getD 0, a0)
    rw [hsort] at hm
    simp only [Option.map, Option.some.injEq] at hm
    obtain ⟨i, hi, heq, hlater⟩ := choose_best_later_strict
      (fun p : ℚ × Alternative => p.1)
      (rest.map (fun a => ((score_alt findOcc a).getD 0, a)))
      ((score_alt findOcc a0).getD 0, a0)
    have hgetmap : ∀ (j : ℕ)
        (hj : j < (((score_alt findOcc a0).getD 0, a0) ::
          rest.map (fun a => ((score_alt findOcc a).getD 0, a))).length)
        (hj' : j < (a0 :: rest).length),
        (((score_alt findOcc a0).getD 0, a0) ::
            rest.map (fun a => ((score_alt findOcc a).getD 0, a))).get ⟨j, hj⟩ =
          ((score_alt findOcc ((a0 :: rest).get ⟨j, hj'⟩)).getD 0,
            (a0 :: rest).get ⟨j, hj'⟩) := by
      intro j hj hj'
      have hmap : (((score_alt findOcc a0).getD 0, a0) ::
          rest.map (fun a => ((score_alt findOcc a).getD 0, a))) =
            (a0 :: rest).map (fun a => ((score_alt findOcc a).getD 0, a)) := by
        rw [List.map_cons]
      rw [List.get_of_eq hmap ⟨j, hj⟩]
      cases j with
      | zero => rfl
      | succ j2 => simp [List.get_eq_getElem]
    have hlen : i < (a0 :: rest).length := by simpa using hi
    have hginst := hgetmap i hi hlen
    rw [hginst] at heq
    have hmi : (a0 :: rest).get ⟨i, hlen⟩ = m := by
      rw [← hm, ← heq]
    have hkeycb : (choose_best (fun p : ℚ × Alternative => p.1)
        ((score_alt findOcc a0).getD 0, a0)
        (rest.map (fun a => ((score_alt findOcc a).getD 0, a)))).1 =
          (score_alt findOcc m).getD 0 := by
      rw [← heq, hmi]
    refine ⟨(score_alt findOcc m).getD 0, i, hlen, ?_, hmi, ?_⟩
    · rw [← hmi]
      exact hsome _ (List.get_mem (a0 :: rest) i hlen)
    · intro j hj
      have hjmem : j < (((score_alt findOcc a0).getD 0, a0) ::
          rest.map (fun a => ((score_alt findOcc a).getD 0, a))).length := by
        simpa using hj
      have hgj := hgetmap j hjmem hj
      refine ⟨(score_alt findOcc ((a0 :: rest).get ⟨j, hj⟩)).getD 0,
        hsome _ (List.get_mem (a0 :: rest) j hj), ?_, ?_⟩
      · have hmax := choose_best_max (fun p : ℚ × Alternative => p.1)
          (rest.map (fun a => ((score_alt findOcc a).getD 0, a)))
          ((score_alt findOcc a0).getD 0, a0)
          ((((score_alt findOcc a0).getD 0, a0) ::
            rest.map (fun a => ((score_alt findOcc a).getD 0, a))).get ⟨j, hjmem⟩)
          (List.get_mem _ j hjmem)
        rw [hgj] at hmax
        rw [← hkeycb]
        exact hmax
      · intro hij
        have hstrict := hlater j hjmem hij
        rw [hgj] at hstrict
        rw [← hkeycb]
        exact hstrict

/-- Claim C7: `get_best_alt` fails (panics) exactly when the input slice is
empty; it returns the top-ranked (index 0) alternative when no alternative
contains a chapter keyword; and otherwise it returns, among the
keyword-containing alternatives, one attaining the maximum composite score
`confidence + keyword_bonus + number_bonus` (computed by `score_alt`), with
exact ties resolved in favor of the later alternative in input order: every
keyword-containing candidate after the returned one scores strictly
lower. -/
theorem get_best_alt_spec (findOcc : List Token → Option Occurrence)
    (alts : List Alternative) :
    (get_best_alt findOcc alts = none ↔ alts = []) ∧
    (alts.filter alt_contains_potential_match = [] →
      get_best_alt findOcc alts = alts.get? 0) ∧
    (∀ m, alts.filter alt_contains_potential_match ≠ [] →
      get_best_alt findOcc alts = some m →
      ∃ (s : ℚ) (i : ℕ)
        (hi : i < (alts.filter alt_contains_potential_match).length),
        score_alt findOcc m = some s ∧
        (alts.filter alt_contains_potential_match).get ⟨i, hi⟩ = m ∧
        ∀ (j : ℕ) (hj : j < (alts.filter alt_contains_potential_match).length),
          ∃ sj,
            score_alt findOcc
              ((alts.filter alt_contains_potential_match).get ⟨j, hj⟩) = some sj ∧
            sj ≤ s ∧ (i < j → sj < s)) := by
  by_cases hempty : (alts.filter alt_contains_potential_match).isEmpty
  · have hget : get_best_alt findOcc alts = alts.get? 0 := by
      unfold get_best_alt
      dsimp only
      rw [if_pos hempty]
    refine ⟨?_, fun _ => hget, ?_⟩
    · rw [hget]
      cases alts with
      | nil => simp
      | cons a as => simp
    · intro m hne _
      exact absurd (List.isEmpty_iff.mp hempty) hne
  · have hne : alts.filter alt_contains_potential_match ≠ [] := by
      simpa [List.isEmpty_iff] using hempty
    have hall : ∀ a ∈ alts.filter alt_contains_potential_match,
        (score_alt findOcc a).isSome = true := fun a ha =>
      score_alt_isSome findOcc a (List.mem_filter.mp ha).2
    have hmapm := mapM_scored findOcc _ hall
    have hform : get_best_alt findOcc alts =
        ((((alts.filter alt_contains_potential_match).map
            (fun a => ((score_alt findOcc a).getD 0, a))).insertionSort
              (fun p q => p.1 ≤ q.1)).getLast?).map Prod.snd := by
      unfold get_best_alt
      dsimp only
      rw [if_neg (by simp [hempty]), hmapm]
    have hsortne : ((alts.filter alt_contains_potential_match).map
        (fun a => ((score_alt findOcc a).getD 0, a))).insertionSort
          (fun p q => p.1 ≤ q.1) ≠ [] := by
      intro hnil
      have hlen := List.length_insertionSort (fun p q : ℚ × Alternative => p.1 ≤ q.1)
        ((alts.filter alt_contains_potential_match).map
          (fun a => ((score_alt findOcc a).getD 0, a)))
      rw [hnil] at hlen
      simp only [List.length_nil, List.length_map] at hlen
      exact hne (List.length_eq_zero.mp hlen.symm)
    have hsome_res : ∃ m, get_best_alt findOcc alts = some m := by
      rw [hform]
      cases hlast : (((alts.filter alt_contains_potential_match).map
          (fun a => ((score_alt findOcc a).getD 0, a))).insertionSort
            (fun p q => p.1 ≤ q.1)).getLast? with
      | none => exact absurd (List.getLast?_eq_none_iff.mp hlast) hsortne
      | some p => exact ⟨p.2, rfl⟩
    refine ⟨?_, ?_, ?_⟩
    · constructor
      · intro habs
        obtain ⟨m, hm⟩ := hsome_res
        rw [hm] at habs
        simp at habs
      · intro habs
        have : alts.filter alt_contains_potential_match = [] := by
          simp [habs]
        exact absurd this hne
    · intro habs
      exact absurd habs hne
    · intro m _ hm
      rw [hform] at hm
      exact scored_last_characterization findOcc
        (alts.filter alt_contains_potential_match) hne hall m hm

/-- A recognized word that is not a chapter keyword. -/
def exWiaHello : WordInAlternative := { word := "hello", start := 0, stop := 1 }

/-- A recognized chapter-keyword word. -/
def exWiaChapter : WordInAlternative := { word := "chapter", start := 2, stop := 5/2 }

/-- An alternative with no chapter keyword. -/
def exAltPlain : Alternative := { confidence := 1, result := [exWiaHello] }

/-- An alternative containing a chapter keyword. -/
def exAltChap : Alternative := { confidence := 1/2, result := [exWiaChapter] }

/-- A number-phrase search finding nothing, for concrete witnesses. -/
def exFindOcc : List Token → Option Occurrence := fun _ => none

/-- Witness for C7 at concrete inputs: one keyword-free alternative is
returned as the top-ranked pick, the empty slice panics, and a slice whose
second alternative has the keyword does not panic. -/
theorem get_best_alt_spec_witness :
    get_best_alt exFindOcc [exAltPlain] = [exAltPlain].get? 0 ∧
    get_best_alt exFindOcc [] = none ∧
    ¬ (get_best_alt exFindOcc [exAltPlain, exAltChap] = none) := by
  refine ⟨(get_best_alt_spec exFindOcc [exAltPlain]).2.1 (by with_unfolding_all decide),
    (get_best_alt_spec exFindOcc []).1.mpr rfl, ?_⟩
  intro hn
  have habs := (get_best_alt_spec exFindOcc [exAltPlain, exAltChap]).1.mp hn
  simp at habs

end Chapterizer
